import Mathlib

/- Verification of the transactional key-value adapters of the juicefs
   metadata layer (pkg/meta/tkv_leveldb.go, goleveldb and levigo variants,
   and pkg/meta/tkv_rocksdb.go): byte ordering, the nextKey upper-bound
   calculator, range and prefix scans, existence checks, transaction
   commit/rollback behaviour and the packed counters. -/

/-- A key or value: a sequence of bytes.  Bytes are modelled as Nat with
    arithmetic taken mod 256 where the Go code can wrap. -/
abbrev Bytes := List Nat

/-- Go bytes.Compare: lexicographic comparison where a proper suffix
    extension is greater. -/
def compBytes : Bytes → Bytes → Ordering
  | [], [] => .eq
  | [], _ :: _ => .lt
  | _ :: _, [] => .gt
  | a :: as, b :: bs =>
    if a < b then .lt else if b < a then .gt else compBytes as bs

/-- bytes.Compare(a, b) < 0 as a boolean. -/
def ltB (a b : Bytes) : Bool :=
  match compBytes a b with
  | .lt => true
  | _ => false

/-- bytes.Compare(a, b) <= 0 as a boolean. -/
def leB (a b : Bytes) : Bool :=
  match compBytes a b with
  | .gt => false
  | _ => true

theorem compBytes_refl (a : Bytes) : compBytes a a = .eq := by
  induction a with
  | nil => rfl
  | cons x xs ih => simp [compBytes, ih]

theorem compBytes_eq_iff {a b : Bytes} : compBytes a b = .eq ↔ a = b := by
  induction a generalizing b with
  | nil => cases b <;> simp [compBytes]
  | cons x xs ih =>
    cases b with
    | nil => simp [compBytes]
    | cons y ys =>
      by_cases hxy : x < y
      · simp [compBytes, hxy]
        omega
      · by_cases hyx : y < x
        · simp [compBytes, hxy, hyx]
          omega
        · have hxy2 : x = y := by omega
          simp [compBytes, hxy, hyx, hxy2, ih]

theorem compBytes_swap (a b : Bytes) : compBytes b a = (compBytes a b).swap := by
  induction a generalizing b with
  | nil => cases b <;> simp [compBytes, Ordering.swap]
  | cons x xs ih =>
    cases b with
    | nil => simp [compBytes, Ordering.swap]
    | cons y ys =>
      by_cases hxy : x < y
      · have hyx : ¬ y < x := by omega
        simp [compBytes, hxy, hyx, Ordering.swap]
      · by_cases hyx : y < x
        · simp [compBytes, hxy, hyx, Ordering.swap]
        · simp [compBytes, hxy, hyx, ih]

theorem compBytes_trans {a b c : Bytes} (h1 : compBytes a b = .lt)
    (h2 : compBytes b c = .lt) : compBytes a c = .lt := by
  induction a generalizing b c with
  | nil =>
    cases b with
    | nil => simp [compBytes] at h1
    | cons y ys =>
      cases c with
      | nil => simp [compBytes] at h2
      | cons z zs => simp [compBytes]
  | cons x xs ih =>
    cases b with
    | nil => simp [compBytes] at h1
    | cons y ys =>
      cases c with
      | nil => simp [compBytes] at h2
      | cons z zs =>
        simp only [compBytes] at h1 h2 ⊢
        by_cases hxy : x < y
        · by_cases hyz : y < z
          · have hxz : x < z := by omega
            simp [hxz]
          · by_cases hzy : z < y
            · simp [hxy, hyz, hzy] at h2
            · have hyz2 : y = z := by omega
              have hxz : x < z := by omega
              simp [hxz]
        · by_cases hyx : y < x
          · simp [hxy, hyx] at h1
          · have hxy2 : x = y := by omega
            by_cases hyz : y < z
            · have hxz : x < z := by omega
              simp [hxz]
            · by_cases hzy : z < y
              · simp [hyz, hzy] at h2
              · have hyz2 : y = z := by omega
                have hxz : ¬ x < z := by omega
                have hzx : ¬ z < x := by omega
                simp [hxy, hyx] at h1
                simp [hyz, hzy] at h2
                simp [hxz, hzx]
                exact ih h1 h2

theorem ltB_iff {a b : Bytes} : ltB a b = true ↔ compBytes a b = .lt := by
  unfold ltB
  cases compBytes a b <;> simp

theorem leB_iff {a b : Bytes} : leB a b = true ↔ compBytes a b ≠ .gt := by
  unfold leB
  cases compBytes a b <;> simp

theorem ltB_irrefl (a : Bytes) : ltB a a = false := by
  unfold ltB
  rw [compBytes_refl]

theorem ltB_trans {a b c : Bytes} (h1 : ltB a b = true) (h2 : ltB b c = true) :
    ltB a c = true := by
  rw [ltB_iff] at h1 h2 ⊢
  exact compBytes_trans h1 h2

theorem not_ltB_iff_leB {a b : Bytes} : ltB a b = false ↔ leB b a = true := by
  unfold ltB leB
  rw [compBytes_swap b a]
  cases compBytes b a <;> simp [Ordering.swap]

theorem leB_ltB_trans {a b c : Bytes} (h1 : leB a b = true) (h2 : ltB b c = true) :
    ltB a c = true := by
  rw [leB_iff] at h1
  rw [ltB_iff] at h2 ⊢
  cases hab : compBytes a b with
  | lt => exact compBytes_trans hab h2
  | eq => rwa [compBytes_eq_iff.mp hab]
  | gt => exact absurd hab h1

theorem ltB_leB_trans {a b c : Bytes} (h1 : ltB a b = true) (h2 : leB b c = true) :
    ltB a c = true := by
  rw [leB_iff] at h2
  rw [ltB_iff] at h1 ⊢
  cases hbc : compBytes b c with
  | lt => exact compBytes_trans h1 hbc
  | eq => rw [← compBytes_eq_iff.mp hbc]; exact h1
  | gt => exact absurd hbc h2

theorem ltB_asymm {a b : Bytes} (h : ltB a b = true) : ltB b a = false := by
  cases hba : ltB b a with
  | false => rfl
  | true =>
    have := ltB_trans h hba
    rw [ltB_irrefl] at this
    exact absurd this (by simp)

theorem leB_of_ltB {a b : Bytes} (h : ltB a b = true) : leB a b = true := by
  rw [ltB_iff] at h
  rw [leB_iff, h]
  simp

/-- One result of ldbTxn.nextKey / rocksdbTxn.nextKey: an empty key yields
    nil (no upper bound), an all-0xFF key panics, otherwise a bound is
    produced. -/
inductive NextKey where
  | noBound : NextKey
  | bound : Bytes → NextKey
  | fatal : NextKey
deriving DecidableEq

/-- The carry loop of nextKey, on the reversed key: increment the first
    byte (the key's last byte) mod 256; on wrap to zero keep the zero and
    carry into the rest; running out of bytes is the panic case (none). -/
def incrRev : Bytes → Option Bytes
  | [] => none
  | b :: rest =>
    if (b + 1) % 256 ≠ 0 then some ((b + 1) % 256 :: rest)
    else (incrRev rest).map (fun r => 0 :: r)

/-- ldbTxn.nextKey and rocksdbTxn.nextKey (identical in all three
    adapters): copy the key, then increment its last byte with carry
    toward the front; empty key returns nil, all-0xFF panics. -/
def nextKey (key : Bytes) : NextKey :=
  if key = [] then .noBound
  else
    match incrRev key.reverse with
    | some r => .bound r.reverse
    | none => .fatal

theorem incrRev_compute (m : Nat) (b : Nat) (rest : Bytes) (hb : b < 255) :
    incrRev (List.replicate m 255 ++ b :: rest) =
      some (List.replicate m 0 ++ (b + 1) :: rest) := by
  induction m with
  | zero =>
    have h1 : (b + 1) % 256 = b + 1 := Nat.mod_eq_of_lt (by omega)
    simp [incrRev, h1]
  | succ k ih =>
    simp only [List.replicate_succ, List.cons_append, incrRev]
    norm_num
    rw [ih]

theorem incrRev_all_max (m : Nat) : incrRev (List.replicate m 255) = none := by
  induction m with
  | zero => rfl
  | succ k ih =>
    simp only [List.replicate_succ, incrRev]
    norm_num
    rw [ih]

/-- Every byte list is either all 0xFF or splits as q ++ b :: 0xFF^m with
    b not 0xFF (b is the last non-0xFF byte). -/
theorem bytes_decomp (K : Bytes) :
    (∀ x ∈ K, x = 255) ∨
      ∃ q b m, K = q ++ b :: List.replicate m 255 ∧ b ≠ 255 := by
  induction K with
  | nil => left; simp
  | cons c rest ih =>
    by_cases hc : c = 255
    · rcases ih with hall | ⟨q, b, m, hdec, hb⟩
      · left
        intro x hx
        rcases List.mem_cons.mp hx with h | h
        · rw [h, hc]
        · exact hall x h
      · right
        exact ⟨c :: q, b, m, by rw [hdec]; rfl, hb⟩
    · rcases ih with hall | ⟨q, b, m, hdec, hb⟩
      · right
        refine ⟨[], c, rest.length, ?_, hc⟩
        have : rest = List.replicate rest.length 255 :=
          List.eq_replicate_of_mem hall
        rw [← this]
        rfl
      · right
        exact ⟨c :: q, b, m, by rw [hdec]; rfl, hb⟩

theorem nextKey_compute {q : Bytes} {b m : Nat} (hb : b < 255) :
    nextKey (q ++ b :: List.replicate m 255) =
      .bound (q ++ (b + 1) :: List.replicate m 0) := by
  unfold nextKey
  have hne : q ++ b :: List.replicate m 255 ≠ [] := by simp
  rw [if_neg hne]
  have hrev : (q ++ b :: List.replicate m 255).reverse =
      List.replicate m 255 ++ b :: q.reverse := by
    simp [List.reverse_append]
  rw [hrev, incrRev_compute m b q.reverse hb]
  simp [List.reverse_append]

theorem compBytes_append_left (q : Bytes) (x y : Bytes) :
    compBytes (q ++ x) (q ++ y) = compBytes x y := by
  induction q with
  | nil => rfl
  | cons a as ih => simp [compBytes, ih]

theorem compBytes_cons_lt {a b : Nat} (h : a < b) (x y : Bytes) :
    compBytes (a :: x) (b :: y) = .lt := by
  simp [compBytes, h]

theorem compBytes_nil_right_ne_lt (t : Bytes) : compBytes t [] ≠ .lt := by
  cases t <;> simp [compBytes]

theorem not_leB_iff_ltB {a b : Bytes} : leB a b = false ↔ ltB b a = true := by
  unfold ltB leB
  rw [compBytes_swap b a]
  cases compBytes b a <;> simp [Ordering.swap]

/-- Any byte sequence strictly between q ++ b :: x and q ++ [b+1] must
    itself extend q ++ [b]. -/
theorem compBytes_sandwich {q : Bytes} {b : Nat} {x m : Bytes}
    (h1 : compBytes (q ++ b :: x) m = .lt)
    (h2 : compBytes m (q ++ [b + 1]) = .lt) :
    ∃ t, m = q ++ b :: t ∧ compBytes x t = .lt := by
  induction q generalizing m with
  | nil =>
    cases m with
    | nil => simp [compBytes] at h1
    | cons c t =>
      simp only [List.nil_append, compBytes] at h1 h2
      by_cases hbc : b < c
      · by_cases hcb1 : c < b + 1
        · omega
        · by_cases hb1c : b + 1 < c
          · simp [hcb1, hb1c] at h2
          · have hcb2 : c = b + 1 := by omega
            simp [hcb1, hb1c] at h2
            exact absurd h2 (compBytes_nil_right_ne_lt t)
      · by_cases hcb : c < b
        · simp [hbc, hcb] at h1
        · have : b = c := by omega
          subst this
          simp [hbc, hcb] at h1
          exact ⟨t, rfl, h1⟩
  | cons a q ih =>
    cases m with
    | nil => simp [compBytes] at h1
    | cons c t =>
      simp only [List.cons_append, compBytes] at h1 h2
      by_cases hac : a < c
      · have : ¬ c < a := by omega
        simp [hac, this] at h2
      · by_cases hca : c < a
        · simp [hac, hca] at h1
        · have : a = c := by omega
          subst this
          simp [hac, hca] at h1 h2
          obtain ⟨t2, ht2, hxt2⟩ := ih h1 h2
          refine ⟨t2, ?_, hxt2⟩
          rw [ht2]
          simp

/-- n is the lexicographically smallest byte sequence strictly greater
    than every byte sequence having K as a prefix. -/
def IsLeastBoundFor (K n : Bytes) : Prop :=
  (∀ ext, K <+: ext → ltB ext n = true) ∧
  ∀ m, (∀ ext, K <+: ext → ltB ext m = true) → leB n m = true

/-- The zero-filled increment is an upper bound for every extension of
    the original key. -/
theorem strict_bound_of_decomp (q : Bytes) (b m : Nat) :
    ∀ ext, (q ++ b :: List.replicate m 255) <+: ext →
      ltB ext (q ++ (b + 1) :: List.replicate m 0) = true := by
  intro ext hpre
  obtain ⟨t, ht⟩ := hpre
  rw [← ht, ltB_iff]
  have hassoc : (q ++ b :: List.replicate m 255) ++ t =
      q ++ b :: (List.replicate m 255 ++ t) := by simp
  rw [hassoc, compBytes_append_left]
  exact compBytes_cons_lt (by omega) _ _

/-- When nothing follows the incremented byte, the bound is least. -/
theorem bound_is_least {q : Bytes} {b : Nat} :
    IsLeastBoundFor (q ++ [b]) (q ++ [b + 1]) := by
  constructor
  · have h := strict_bound_of_decomp q b 0
    simpa using h
  · intro m hm
    cases hle : leB (q ++ [b + 1]) m with
    | true => rfl
    | false =>
      exfalso
      have hmlt : ltB m (q ++ [b + 1]) = true := not_leB_iff_ltB.mp hle
      have hKlt : ltB (q ++ [b]) m = true := hm _ ⟨[], List.append_nil _⟩
      rw [ltB_iff] at hmlt hKlt
      have hKlt2 : compBytes (q ++ b :: []) m = .lt := hKlt
      obtain ⟨t, hmt, hnt⟩ := compBytes_sandwich hKlt2 hmlt
      have htne : t ≠ [] := by
        intro h
        rw [h] at hnt
        simp [compBytes] at hnt
      have hpre : (q ++ [b]) <+: m := by
        refine ⟨t, ?_⟩
        rw [hmt]
        simp
      have := hm m hpre
      rw [ltB_irrefl] at this
      exact absurd this (by simp)

/-- C3: for every non-empty key of bytes not all 0xFF, nextKey produces a
    bound strictly above the key, and every byte sequence extending the
    key stays strictly below that bound. -/
theorem claim3_nextKey_strict_bound (K : Bytes) (_hne : K ≠ [])
    (hvalid : ∀ x ∈ K, x < 256) (hnotmax : ¬ ∀ x ∈ K, x = 255) :
    ∃ n, nextKey K = .bound n ∧ ltB K n = true ∧
      ∀ ext, K <+: ext → ltB ext n = true := by
  rcases bytes_decomp K with hall | ⟨q, b, m, hdec, hb255⟩
  · exact absurd hall hnotmax
  · have hbK : b ∈ K := by rw [hdec]; simp
    have hb : b < 255 := by
      have := hvalid b hbK
      omega
    refine ⟨q ++ (b + 1) :: List.replicate m 0, ?_, ?_, ?_⟩
    · rw [hdec]
      exact nextKey_compute hb
    · exact strict_bound_of_decomp q b m K (by rw [hdec])
    · intro ext hpre
      have h := strict_bound_of_decomp q b m ext (by rw [← hdec]; exact hpre)
      exact h

theorem claim3_witness :
    ∃ n, nextKey [97] = .bound n ∧ ltB [97] n = true ∧
      ∀ ext, [97] <+: ext → ltB ext n = true :=
  claim3_nextKey_strict_bound [97] (by decide) (by decide) (by decide)

/-- C2 counterexample: nextKey of [0x00, 0xFF] is [0x01, 0x00], which is
    not truncated after the incremented position and is not the least
    bound: [0x01] is a strictly smaller bound for the same prefix. -/
theorem claim2_counterexample :
    nextKey [0, 255] = .bound [1, 0] ∧ ¬ IsLeastBoundFor [0, 255] [1, 0] := by
  constructor
  · rfl
  · rintro ⟨hbound, hleast⟩
    have hb1 : ∀ ext, [0, 255] <+: ext → ltB ext [1] = true := by
      intro ext hpre
      obtain ⟨t, ht⟩ := hpre
      rw [← ht, ltB_iff]
      exact compBytes_cons_lt (by omega) _ _
    exact absurd (hleast [1] hb1) (by decide)

/-- C2 amended: nextKey increments the last non-0xFF byte and sets every
    later byte to 0x00 (keeping the length, not truncating); the result is
    strictly greater than every byte sequence having the key as prefix,
    and it is the least such bound when the last byte is not 0xFF (m = 0). -/
theorem claim2_amended (K : Bytes) (_hne : K ≠ []) (hvalid : ∀ x ∈ K, x < 256)
    (hnotmax : ¬ ∀ x ∈ K, x = 255) :
    ∃ q b m, K = q ++ b :: List.replicate m 255 ∧ b ≠ 255 ∧
      nextKey K = .bound (q ++ (b + 1) :: List.replicate m 0) ∧
      (∀ ext, K <+: ext → ltB ext (q ++ (b + 1) :: List.replicate m 0) = true) ∧
      (m = 0 → IsLeastBoundFor K (q ++ [b + 1])) := by
  rcases bytes_decomp K with hall | ⟨q, b, m, hdec, hb255⟩
  · exact absurd hall hnotmax
  · have hbK : b ∈ K := by rw [hdec]; simp
    have hb : b < 255 := by
      have := hvalid b hbK
      omega
    refine ⟨q, b, m, hdec, hb255, ?_, ?_, ?_⟩
    · rw [hdec]
      exact nextKey_compute hb
    · intro ext hpre
      exact strict_bound_of_decomp q b m ext (by rw [← hdec]; exact hpre)
    · intro hm0
      subst hm0
      rw [hdec]
      simpa using bound_is_least

/-- A visible store view for scans: association list of key-value pairs
    in strictly ascending key order (the iterator enumeration order). -/
abbrev KVStore := List (Bytes × Bytes)

/-- The store invariant: keys strictly ascending under bytes.Compare. -/
def SortedKV (s : KVStore) : Prop :=
  List.Pairwise (fun x y => ltB x.1 y.1 = true) s

/-- Iterator Seek(begin): position at the first entry whose key is not
    below begin. -/
def seekKV (s : KVStore) (b : Bytes) : KVStore :=
  s.dropWhile (fun kv => ltB kv.1 b)

/-- The loop of scanRange0 after Seek: break at the first key with
    bytes.Compare(key, end) >= 0, keep entries passing the filter. -/
def scanLoop (f : Bytes → Bytes → Bool) (e : Bytes) : KVStore → KVStore
  | [] => []
  | (k, v) :: rest =>
    match compBytes k e with
    | .lt => (if f k v then [(k, v)] else []) ++ scanLoop f e rest
    | _ => []

/-- ldbTxn.scanRange0 (both leveldb variants) and rocksdbTxn.scanRange0
    over the visible sorted store: Seek(begin), iterate, break at end,
    filter.  A nil Go filter is passed here as fun _ _ => true. -/
def scanRange0 (s : KVStore) (b e : Bytes) (f : Bytes → Bytes → Bool) : KVStore :=
  scanLoop f e (seekKV s b)

theorem sortedKV_seek {s : KVStore} (hs : SortedKV s) (b : Bytes) :
    SortedKV (seekKV s b) :=
  List.Pairwise.sublist (List.dropWhile_sublist _) hs

theorem seekKV_mem {s : KVStore} (hs : SortedKV s) {b : Bytes}
    {kv : Bytes × Bytes} :
    kv ∈ seekKV s b ↔ kv ∈ s ∧ leB b kv.1 = true := by
  induction s with
  | nil => simp [seekKV]
  | cons hd rest ih =>
    obtain ⟨hhd, hrest⟩ := List.pairwise_cons.mp hs
    by_cases hlt : ltB hd.1 b = true
    · have hdrop : seekKV (hd :: rest) b = seekKV rest b := by
        simp [seekKV, List.dropWhile_cons, hlt]
      rw [hdrop, ih hrest]
      constructor
      · rintro ⟨hm, hle⟩
        exact ⟨List.mem_cons_of_mem _ hm, hle⟩
      · rintro ⟨hm, hle⟩
        rcases List.mem_cons.mp hm with h | h
        · exfalso
          rw [h] at hle
          have := leB_ltB_trans hle hlt
          rw [ltB_irrefl] at this
          exact absurd this (by simp)
        · exact ⟨h, hle⟩
    · have hstop : seekKV (hd :: rest) b = hd :: rest := by
        simp [seekKV, List.dropWhile_cons, hlt]
      rw [hstop]
      have hhdle : leB b hd.1 = true :=
        not_ltB_iff_leB.mp (by simpa using hlt)
      constructor
      · intro hm
        refine ⟨hm, ?_⟩
        rcases List.mem_cons.mp hm with h | h
        · rw [h]; exact hhdle
        · exact leB_of_ltB (leB_ltB_trans hhdle (hhd _ h))
      · exact fun h => h.1

theorem scanLoop_mem {l : KVStore} (hl : SortedKV l) {f : Bytes → Bytes → Bool}
    {e : Bytes} {k v : Bytes} :
    (k, v) ∈ scanLoop f e l ↔ (k, v) ∈ l ∧ ltB k e = true ∧ f k v = true := by
  induction l with
  | nil => simp [scanLoop]
  | cons hd rest ih =>
    obtain ⟨k1, v1⟩ := hd
    obtain ⟨hhd, hrest⟩ := List.pairwise_cons.mp hl
    cases hcmp : compBytes k1 e with
    | lt =>
      have hk1e : ltB k1 e = true := ltB_iff.mpr hcmp
      have hloop : scanLoop f e ((k1, v1) :: rest) =
          (if f k1 v1 then [(k1, v1)] else []) ++ scanLoop f e rest := by
        simp [scanLoop, hcmp]
      rw [hloop]
      by_cases hf : f k1 v1 = true
      · rw [if_pos hf]
        simp only [List.singleton_append, List.mem_cons, ih hrest]
        constructor
        · rintro (heq | ⟨hm, hlt2, hf2⟩)
          · rw [Prod.mk.injEq] at heq
            obtain ⟨hk, hv⟩ := heq
            subst hk; subst hv
            exact ⟨Or.inl rfl, hk1e, hf⟩
          · exact ⟨Or.inr hm, hlt2, hf2⟩
        · rintro ⟨heq | hm2, hlt2, hf2⟩
          · exact Or.inl heq
          · exact Or.inr ⟨hm2, hlt2, hf2⟩
      · rw [if_neg hf, List.nil_append, ih hrest]
        constructor
        · rintro ⟨hm, hlt2, hf2⟩
          exact ⟨List.mem_cons_of_mem _ hm, hlt2, hf2⟩
        · rintro ⟨hm, hlt2, hf2⟩
          rcases List.mem_cons.mp hm with heq | hm2
          · exfalso
            rw [Prod.mk.injEq] at heq
            obtain ⟨hk, hv⟩ := heq
            subst hk; subst hv
            exact hf hf2
          · exact ⟨hm2, hlt2, hf2⟩
    | eq =>
      have hloop : scanLoop f e ((k1, v1) :: rest) = [] := by
        simp [scanLoop, hcmp]
      rw [hloop]
      simp only [List.not_mem_nil, false_iff, List.mem_cons, Prod.mk.injEq]
      rintro ⟨hk | hm, hlt2, hf2⟩
      · obtain ⟨hk1, hv1⟩ := hk
        subst hk1
        rw [ltB_iff, hcmp] at hlt2
        exact absurd hlt2 (by simp)
      · have h1 : ltB k1 k = true := hhd _ hm
        have := ltB_trans h1 hlt2
        rw [ltB_iff, hcmp] at this
        exact absurd this (by simp)
    | gt =>
      have hloop : scanLoop f e ((k1, v1) :: rest) = [] := by
        simp [scanLoop, hcmp]
      rw [hloop]
      simp only [List.not_mem_nil, false_iff, List.mem_cons, Prod.mk.injEq]
      rintro ⟨hk | hm, hlt2, hf2⟩
      · obtain ⟨hk1, hv1⟩ := hk
        subst hk1
        rw [ltB_iff, hcmp] at hlt2
        exact absurd hlt2 (by simp)
      · have h1 : ltB k1 k = true := hhd _ hm
        have := ltB_trans h1 hlt2
        rw [ltB_iff, hcmp] at this
        exact absurd this (by simp)

theorem scanRange0_mem {s : KVStore} (hs : SortedKV s) {b e : Bytes}
    {f : Bytes → Bytes → Bool} {k v : Bytes} :
    (k, v) ∈ scanRange0 s b e f ↔
      (k, v) ∈ s ∧ leB b k = true ∧ ltB k e = true ∧ f k v = true := by
  rw [scanRange0, scanLoop_mem (sortedKV_seek hs b), seekKV_mem hs]
  tauto

/-- C7: scanRange0 returns exactly the visible entries with
    begin <= key < end passing the filter; in particular an empty range
    (begin = end) yields the empty result. -/
theorem claim7_scanRange (s : KVStore) (hs : SortedKV s) (b e : Bytes)
    (f : Bytes → Bytes → Bool) :
    (∀ k v, ((k, v) ∈ scanRange0 s b e f ↔
      (k, v) ∈ s ∧ leB b k = true ∧ ltB k e = true ∧ f k v = true)) ∧
    scanRange0 s b b f = [] := by
  constructor
  · intro k v
    exact scanRange0_mem hs
  · rw [List.eq_nil_iff_forall_not_mem]
    rintro ⟨k, v⟩ hkv
    obtain ⟨_, hle, hlt2, _⟩ := (scanRange0_mem hs).mp hkv
    have := leB_ltB_trans hle hlt2
    rw [ltB_irrefl] at this
    exact absurd this (by simp)

theorem claim7_witness :
    (∀ k v, ((k, v) ∈ scanRange0 [([97], [1]), ([98], [2])] [97] [98]
        (fun _ _ => true) ↔
      (k, v) ∈ [([97], [1]), ([98], [2])] ∧ leB [97] k = true ∧
        ltB k [98] = true ∧ (fun _ _ => true) k v = true)) ∧
    scanRange0 [([97], [1]), ([98], [2])] [97] [97] (fun _ _ => true) = [] :=
  claim7_scanRange [([97], [1]), ([98], [2])]
    (by simp [SortedKV]; decide) [97] [98] (fun _ _ => true)

/-- Exact-key lookup in the visible store. -/
def lookupKV : KVStore → Bytes → Option Bytes
  | [], _ => none
  | (k, v) :: rest, q => if k = q then some v else lookupKV rest q

/-- goleveldb ldbTxn.exist: tx.Has(prefix, nil), an exact-key membership
    test. -/
def golevelExist (s : KVStore) (p : Bytes) : Bool :=
  (lookupKV s p).isSome

/-- levigo ldbTxn.exist: Seek(prefix) on a fresh iterator, then Valid(). -/
def levigoExist (s : KVStore) (p : Bytes) : Bool :=
  !(seekKV s p).isEmpty

/-- rocksdbTxn.exist: Seek(prefix) on the transaction iterator, then
    Valid(). -/
def rocksdbExist (s : KVStore) (p : Bytes) : Bool :=
  !(seekKV s p).isEmpty

/-- A bounded scan of length one starting at p: the first entry at or
    after p, if any. -/
def seekFirst (s : KVStore) (p : Bytes) : Option (Bytes × Bytes) :=
  (seekKV s p).head?

theorem lookupKV_isSome {s : KVStore} {q : Bytes} :
    (lookupKV s q).isSome = true ↔ ∃ v, (q, v) ∈ s := by
  induction s with
  | nil => simp [lookupKV]
  | cons hd rest ih =>
    obtain ⟨k1, v1⟩ := hd
    by_cases hk : k1 = q
    · subst hk
      simp [lookupKV]
    · simp only [lookupKV, if_neg hk, ih, List.mem_cons, Prod.mk.injEq]
      constructor
      · rintro ⟨v, hv⟩
        exact ⟨v, Or.inr hv⟩
      · rintro ⟨v, ⟨hq, _⟩ | hv⟩
        · exact absurd hq.symm hk
        · exact ⟨v, hv⟩

theorem seek_exists_iff {s : KVStore} {p : Bytes} :
    (∃ kv, kv ∈ seekKV s p) ↔ ∃ kv ∈ s, leB p kv.1 = true := by
  induction s with
  | nil => simp [seekKV]
  | cons hd rest ih =>
    by_cases hlt : ltB hd.1 p = true
    · have hstep : seekKV (hd :: rest) p = seekKV rest p := by
        simp [seekKV, List.dropWhile_cons, hlt]
      rw [hstep, ih]
      constructor
      · rintro ⟨kv, hm, hle⟩
        exact ⟨kv, List.mem_cons_of_mem _ hm, hle⟩
      · rintro ⟨kv, hm, hle⟩
        rcases List.mem_cons.mp hm with heq | hm2
        · exfalso
          rw [heq] at hle
          have := leB_ltB_trans hle hlt
          rw [ltB_irrefl] at this
          exact absurd this (by simp)
        · exact ⟨kv, hm2, hle⟩
    · have hstep : seekKV (hd :: rest) p = hd :: rest := by
        simp [seekKV, List.dropWhile_cons, hlt]
      rw [hstep]
      constructor
      · rintro ⟨kv, hm⟩
        exact ⟨hd, List.mem_cons_self _ _,
          not_ltB_iff_leB.mp (by simpa using hlt)⟩
      · rintro ⟨kv, hm, hle⟩
        exact ⟨hd, List.mem_cons_self _ _⟩

/-- C8 counterexample: with the single committed key [0x61, 0x62] and
    prefix [0x61], the goleveldb adapter's exist is false (exact-key Has)
    while the levigo and rocksdb adapters return true (seek of length
    one), so the adapters do not agree and goleveldb's exist is not the
    non-emptiness of the bounded scan. -/
theorem claim8_counterexample :
    golevelExist [([97, 98], [0])] [97] = false ∧
    rocksdbExist [([97, 98], [0])] [97] = true ∧
    levigoExist [([97, 98], [0])] [97] = true ∧
    (seekFirst [([97, 98], [0])] [97]).isSome = true := by
  decide

/-- C8 amended: the levigo and rocksdb adapters agree, and their exist(p)
    is the non-emptiness of the bounded length-one scan starting at p,
    equivalently the existence of a visible key at or above p; the
    goleveldb adapter instead tests exact membership of p, so the
    adapters can disagree. -/
theorem claim8_amended (s : KVStore) (p : Bytes) :
    levigoExist s p = rocksdbExist s p ∧
    (rocksdbExist s p = true ↔ (seekFirst s p).isSome = true) ∧
    (rocksdbExist s p = true ↔ ∃ kv ∈ s, leB p kv.1 = true) ∧
    (golevelExist s p = true ↔ ∃ v, (p, v) ∈ s) := by
  refine ⟨rfl, ?_, ?_, lookupKV_isSome⟩
  · rw [rocksdbExist, seekFirst]
    cases seekKV s p <;> simp
  · rw [rocksdbExist]
    have hne : (!(seekKV s p).isEmpty) = true ↔ ∃ kv, kv ∈ seekKV s p := by
      cases seekKV s p <;> simp
    rw [hne, seek_exists_iff]

theorem leB_nil_left (t : Bytes) : leB [] t = true := by
  cases t <;> rfl

theorem ltB_nil_right (t : Bytes) : ltB t [] = false := by
  cases t <;> rfl

theorem ltB_cons_cons {a c : Nat} {x y : Bytes} :
    ltB (a :: x) (c :: y) = true ↔ (a < c ∨ (a = c ∧ ltB x y = true)) := by
  rw [ltB_iff]
  by_cases h1 : a < c
  · simp [compBytes, h1]
  · by_cases h2 : c < a
    · simp only [compBytes, if_neg h1, if_pos h2]
      constructor
      · intro h
        exact absurd h (by simp)
      · rintro (h | ⟨h, _⟩) <;> omega
    · have h3 : a = c := by omega
      subst h3
      simp [compBytes, h1, h2, ltB_iff]

theorem leB_cons_cons {a c : Nat} {x y : Bytes} :
    leB (a :: x) (c :: y) = true ↔ (a < c ∨ (a = c ∧ leB x y = true)) := by
  rw [leB_iff]
  by_cases h1 : a < c
  · simp [compBytes, h1]
  · by_cases h2 : c < a
    · simp only [compBytes, if_neg h1, if_pos h2]
      constructor
      · intro h
        exact absurd rfl h
      · rintro (h | ⟨h, _⟩) <;> omega
    · have h3 : a = c := by omega
      subst h3
      simp [compBytes, h1, h2, leB_iff]

/-- A key has p = q ++ [b] as a byte prefix exactly when it lies in the
    half-open range [p, q ++ [b+1]) of the byte order. -/
theorem isPrefixOf_iff_range {q : Bytes} {b : Nat} {k : Bytes} :
    (q ++ [b]).isPrefixOf k = true ↔
      (leB (q ++ [b]) k = true ∧ ltB k (q ++ [b + 1]) = true) := by
  induction q generalizing k with
  | nil =>
    cases k with
    | nil => simp [List.isPrefixOf, leB, compBytes]
    | cons c t =>
      simp only [List.nil_append]
      rw [show ((b :: []) : Bytes).isPrefixOf (c :: t) =
        (b == c && (([] : Bytes)).isPrefixOf t) from rfl]
      rw [leB_cons_cons, ltB_cons_cons]
      simp [leB_nil_left, ltB_nil_right, beq_iff_eq]
      omega
  | cons a q ih =>
    cases k with
    | nil => simp [List.isPrefixOf, leB, compBytes]
    | cons c t =>
      simp only [List.cons_append]
      rw [show ((a :: (q ++ [b])) : Bytes).isPrefixOf (c :: t) =
        (a == c && ((q ++ [b] : Bytes)).isPrefixOf t) from rfl]
      rw [leB_cons_cons, ltB_cons_cons]
      by_cases hac : a = c
      · subst hac
        simp only [beq_self_eq_true, Bool.true_and, lt_irrefl, false_or,
          true_and, ih]
      · have hbeq : (a == c) = false := by
          simp [beq_iff_eq]
          omega
        simp only [hbeq, Bool.false_and, Bool.false_eq_true, false_iff]
        rintro ⟨h1 | ⟨h1, _⟩, h2 | ⟨h2, _⟩⟩ <;> omega

/-- rocksdbTxn.scanKeys loop after Seek(prefix): collect keys while
    bytes.HasPrefix(key, prefix) holds, stopping at the first key without
    the prefix. -/
def scanKeysLoop (p : Bytes) : KVStore → List Bytes
  | [] => []
  | (k, _) :: rest => if p.isPrefixOf k then k :: scanKeysLoop p rest else []

/-- rocksdbTxn.scanKeys: Seek(prefix), then the prefix-bounded collection
    loop. -/
def rocksdbScanKeys (s : KVStore) (p : Bytes) : List Bytes :=
  scanKeysLoop p (seekKV s p)

/-- scanValues (identical in the goleveldb, levigo and rocksdb adapters):
    scanRange0(prefix, nextKey(prefix), filter).  none models the Go panic
    of nextKey on an all-0xFF prefix; in the noBound case the nil end makes
    the Go scan loop break immediately. -/
def scanValues (s : KVStore) (p : Bytes) (f : Bytes → Bytes → Bool) :
    Option KVStore :=
  match nextKey p with
  | .bound e => some (scanRange0 s p e f)
  | .noBound => some (scanRange0 s p [] f)
  | .fatal => none

/-- ldbTxn.scanKeys (both leveldb variants): the keys of
    scanValues(prefix, nil). -/
def ldbScanKeys (s : KVStore) (p : Bytes) : Option (List Bytes) :=
  (scanValues s p (fun _ _ => true)).map (List.map Prod.fst)

theorem scanKeysLoop_mem {l : KVStore} {q : Bytes} {b : Nat}
    (hl : SortedKV l) (hall : ∀ kv ∈ l, leB (q ++ [b]) kv.1 = true)
    {k : Bytes} :
    k ∈ scanKeysLoop (q ++ [b]) l ↔
      ∃ v, (k, v) ∈ l ∧ (q ++ [b]).isPrefixOf k = true := by
  induction l with
  | nil => simp [scanKeysLoop]
  | cons hd rest ih =>
    obtain ⟨k1, v1⟩ := hd
    obtain ⟨hhd, hrest⟩ := List.pairwise_cons.mp hl
    have hall1 : leB (q ++ [b]) k1 = true := hall _ (List.mem_cons_self _ _)
    have hallr : ∀ kv ∈ rest, leB (q ++ [b]) kv.1 = true :=
      fun kv hm => hall _ (List.mem_cons_of_mem _ hm)
    by_cases hpre : (q ++ [b]).isPrefixOf k1 = true
    · have hstep : scanKeysLoop (q ++ [b]) ((k1, v1) :: rest) =
          k1 :: scanKeysLoop (q ++ [b]) rest := by
        simp [scanKeysLoop, hpre]
      rw [hstep]
      constructor
      · intro hm
        rcases List.mem_cons.mp hm with heq | hm2
        · subst heq
          exact ⟨v1, List.mem_cons_self _ _, hpre⟩
        · obtain ⟨v, hmv, hp⟩ := (ih hrest hallr).mp hm2
          exact ⟨v, List.mem_cons_of_mem _ hmv, hp⟩
      · rintro ⟨v, hmv, hp⟩
        rcases List.mem_cons.mp hmv with heq | hm2
        · rw [Prod.mk.injEq] at heq
          rw [heq.1]
          exact List.mem_cons_self _ _
        · exact List.mem_cons_of_mem _ ((ih hrest hallr).mpr ⟨v, hm2, hp⟩)
    · have hstep : scanKeysLoop (q ++ [b]) ((k1, v1) :: rest) = [] := by
        simp [scanKeysLoop, hpre]
      rw [hstep]
      simp only [List.not_mem_nil, false_iff]
      rintro ⟨v, hmv, hp⟩
      have hk1 : ltB k1 (q ++ [b + 1]) = false := by
        cases hlt : ltB k1 (q ++ [b + 1]) with
        | false => rfl
        | true => exact absurd (isPrefixOf_iff_range.mpr ⟨hall1, hlt⟩) hpre
      have hbk1 : leB (q ++ [b + 1]) k1 = true := not_ltB_iff_leB.mp hk1
      rcases List.mem_cons.mp hmv with heq | hm2
      · rw [Prod.mk.injEq] at heq
        rw [← heq.1] at hpre
        exact hpre hp
      · have hklt : ltB k (q ++ [b + 1]) = true := (isPrefixOf_iff_range.mp hp).2
        have h1 : ltB k1 k = true := hhd _ hm2
        have h2 : ltB (q ++ [b + 1]) k = true := leB_ltB_trans hbk1 h1
        have := ltB_trans h2 hklt
        rw [ltB_irrefl] at this
        exact absurd this (by simp)

/-- C9 counterexample: with the single committed key [0x62] and the prefix
    [0x61, 0xFF], the rocksdb scanKeys returns no keys (the key does not
    extend the prefix) while the nextKey-bounded derivation used by
    scanValues returns it ([0x62] lies in the range up to [0x62, 0x00]),
    so the key sets differ. -/
theorem claim9_counterexample :
    rocksdbScanKeys [([98], [0])] [97, 255] = [] ∧
    scanValues [([98], [0])] [97, 255] (fun _ _ => true) =
      some [([98], [0])] := by
  constructor
  · rfl
  · rfl

/-- C9 amended: for a prefix whose last byte is not 0xFF, scanValues is
    definitionally scanRange0(prefix, nextKey(prefix), filter), leveldb
    scanKeys is its key list, and the rocksdb prefix-bounded scanKeys
    yields exactly the same key set as that nextKey-bounded derivation;
    for prefixes ending in 0xFF the sets can differ (see the
    counterexample). -/
theorem claim9_amended (s : KVStore) (hs : SortedKV s) (q : Bytes) (b : Nat)
    (hb : b < 255) (f : Bytes → Bytes → Bool) :
    scanValues s (q ++ [b]) f =
      some (scanRange0 s (q ++ [b]) (q ++ [b + 1]) f) ∧
    ldbScanKeys s (q ++ [b]) =
      some ((scanRange0 s (q ++ [b]) (q ++ [b + 1])
        (fun _ _ => true)).map Prod.fst) ∧
    (∀ k, k ∈ rocksdbScanKeys s (q ++ [b]) ↔
      k ∈ (scanRange0 s (q ++ [b]) (q ++ [b + 1])
        (fun _ _ => true)).map Prod.fst) := by
  have hnk : nextKey (q ++ [b]) = .bound (q ++ [b + 1]) := by
    have h := nextKey_compute (q := q) (m := 0) hb
    simpa using h
  refine ⟨?_, ?_, ?_⟩
  · rw [scanValues, hnk]
  · rw [ldbScanKeys, scanValues, hnk]
    rfl
  · intro k
    have hsk : SortedKV (seekKV s (q ++ [b])) := sortedKV_seek hs _
    have hall : ∀ kv ∈ seekKV s (q ++ [b]), leB (q ++ [b]) kv.1 = true :=
      fun kv hm => ((seekKV_mem hs).mp hm).2
    rw [rocksdbScanKeys, scanKeysLoop_mem hsk hall, List.mem_map]
    constructor
    · rintro ⟨v, hm, hp⟩
      obtain ⟨hms, hle⟩ := (seekKV_mem hs).mp hm
      obtain ⟨_, hlt2⟩ := isPrefixOf_iff_range.mp hp
      exact ⟨(k, v), (scanRange0_mem hs).mpr ⟨hms, hle, hlt2, rfl⟩, rfl⟩
    · rintro ⟨⟨k2, v⟩, hm, hfst⟩
      obtain ⟨hms, hle, hlt2, _⟩ := (scanRange0_mem hs).mp hm
      have hk2 : k2 = k := hfst
      subst hk2
      exact ⟨v, (seekKV_mem hs).mpr ⟨hms, hle⟩,
        isPrefixOf_iff_range.mpr ⟨hle, hlt2⟩⟩

theorem claim9_witness :
    scanValues [([97, 0], [1])] ([] ++ [97]) (fun _ _ => true) =
      some (scanRange0 [([97, 0], [1])] ([] ++ [97]) ([] ++ [98])
        (fun _ _ => true)) ∧
    ldbScanKeys [([97, 0], [1])] ([] ++ [97]) =
      some ((scanRange0 [([97, 0], [1])] ([] ++ [97]) ([] ++ [98])
        (fun _ _ => true)).map Prod.fst) ∧
    (∀ k, k ∈ rocksdbScanKeys [([97, 0], [1])] ([] ++ [97]) ↔
      k ∈ (scanRange0 [([97, 0], [1])] ([] ++ [97]) ([] ++ [98])
        (fun _ _ => true)).map Prod.fst) :=
  claim9_amended [([97, 0], [1])] (by simp [SortedKV]) [] 97 (by decide)
    (fun _ _ => true)

/-- A committed store view: a partial map from keys to values. -/
abbrev View := Bytes → Option Bytes

def emptyView : View := fun _ => none

/-- A buffered transaction effect: a tx.set or tx.dels entry (append and
    incrBy write through tx.set). -/
inductive KVOp where
  | set (k v : Bytes)
  | del (k : Bytes)

/-- The newest pending write of the transaction buffer touching k, if
    any: some (some v) after a set, some none after a delete. -/
def bufGet (ops : List KVOp) (k : Bytes) : Option (Option Bytes) :=
  ops.foldl
    (fun acc op =>
      match op with
      | .set k2 v => if k2 = k then some (some v) else acc
      | .del k2 => if k2 = k then some none else acc)
    none

/-- The merged read view of a transaction reading through its own pending
    writes (goleveldb Transaction.Get, rocksdb Transaction.Get): the
    newest buffered write wins, otherwise the snapshot value. -/
def txnView (base : View) (ops : List KVOp) : View := fun k =>
  match bufGet ops k with
  | some r => r
  | none => base k

/-- goleveldb ldbTxn.get inside a transaction: tx.Get of the engine
    transaction, reading through the pending writes; ErrNotFound maps to
    nil. -/
def golevelTxnGet (base : View) (ops : List KVOp) (k : Bytes) : Option Bytes :=
  txnView base ops k

/-- rocksdbTxn.get inside a transaction: tx.txn.Get, reading through the
    pending writes; a missing value maps to nil, otherwise its bytes are
    copied out. -/
def rocksdbTxnGet (base : View) (ops : List KVOp) (k : Bytes) : Option Bytes :=
  txnView base ops k

/-- levigo ldbTxn.get against a plain view: tx.client.ldb.Get through the
    snapshot read options; len(value) == 0 (absent or empty) maps to
    nil. -/
def levigoGet (base : View) (k : Bytes) : Option Bytes :=
  match base k with
  | none => none
  | some v => if v.length = 0 then none else some v

/-- levigo ldbTxn.get inside a transaction: the snapshot is read and the
    pending write batch is ignored. -/
def levigoTxnGet (base : View) (_ops : List KVOp) (k : Bytes) : Option Bytes :=
  levigoGet base k

/-- goleveldb ldbTxn.get against a committed view (ErrNotFound maps to
    nil, a present empty value stays present). -/
def golevelGet (base : View) (k : Bytes) : Option Bytes :=
  base k

/-- rocksdbTxn.get against a committed view (missing maps to nil, a
    present empty value is copied and returned). -/
def rocksdbGet (base : View) (k : Bytes) : Option Bytes :=
  match base k with
  | none => none
  | some v => some v

theorem bufGet_append (ops : List KVOp) (op : KVOp) (k : Bytes) :
    bufGet (ops ++ [op]) k =
      match op with
      | .set k2 v => if k2 = k then some (some v) else bufGet ops k
      | .del k2 => if k2 = k then some none else bufGet ops k := by
  unfold bufGet
  rw [List.foldl_append]
  cases op <;> rfl

theorem txnView_set_same (base : View) (ops : List KVOp) (k v : Bytes) :
    txnView base (ops ++ [KVOp.set k v]) k = some v := by
  unfold txnView
  rw [bufGet_append]
  simp

theorem txnView_del_same (base : View) (ops : List KVOp) (k : Bytes) :
    txnView base (ops ++ [KVOp.del k]) k = none := by
  unfold txnView
  rw [bufGet_append]
  simp

/-- C1: the goleveldb and rocksdb transactions read their own pending
    writes (a buffered set of k is returned by get k, a buffered delete
    of k makes get k absent); the levigo adapter violates this claim: its
    get reads the snapshot and ignores the write batch, so on the empty
    store a transaction that performs set([0x61], [0x01]) and then
    get([0x61]) receives absent instead of [0x01], and after dels of a
    committed key it still reads the old value. -/
theorem claim1_levigo_read_own_write_bug :
    (∀ (base : View) (ops : List KVOp) (k v : Bytes),
      golevelTxnGet base (ops ++ [KVOp.set k v]) k = some v ∧
      rocksdbTxnGet base (ops ++ [KVOp.set k v]) k = some v ∧
      golevelTxnGet base (ops ++ [KVOp.del k]) k = none ∧
      rocksdbTxnGet base (ops ++ [KVOp.del k]) k = none) ∧
    levigoTxnGet emptyView [KVOp.set [97] [1]] [97] = none ∧
    golevelTxnGet emptyView [KVOp.set [97] [1]] [97] = some [1] ∧
    rocksdbTxnGet emptyView [KVOp.set [97] [1]] [97] = some [1] ∧
    levigoTxnGet (fun k => if k = [97] then some [5] else none)
      [KVOp.del [97]] [97] = some [5] := by
  refine ⟨?_, rfl, rfl, rfl, rfl⟩
  intro base ops k v
  exact ⟨txnView_set_same base ops k v, txnView_set_same base ops k v,
    txnView_del_same base ops k, txnView_del_same base ops k⟩

/-- The caller-visible result of Client.txn: success, a returned error
    value, or a process-fatal panic. -/
inductive Outcome where
  | ok : Outcome
  | err : Nat → Outcome
  | fatal : Outcome
deriving DecidableEq

/-- goleveldb leveldbClient.txn: work runs against the engine
    transaction accumulating ops; on a work error the transaction is
    discarded and the error returned; otherwise Commit, and a commit
    failure panics (fatal). -/
def golevelTxn (base : View) (ops : List KVOp) (wErr : Option Nat)
    (cErr : Option Nat) : View × Outcome :=
  match wErr with
  | some e => (base, .err e)
  | none =>
    match cErr with
    | some _ => (base, .fatal)
    | none => (txnView base ops, .ok)

/-- levigo leveldbClient.txn: on a work error the write batch is dropped
    and the error returned; otherwise the batch is written, and a write
    failure panics (fatal). -/
def levigoTxn (base : View) (ops : List KVOp) (wErr : Option Nat)
    (cErr : Option Nat) : View × Outcome :=
  match wErr with
  | some e => (base, .err e)
  | none =>
    match cErr with
    | some _ => (base, .fatal)
    | none => (txnView base ops, .ok)

/-- rocksdbClient.txn: on a work error Rollback and return it; otherwise
    the result of txn.Commit() is returned directly, so a commit failure
    comes back to the caller as an error value. -/
def rocksdbTxnRun (base : View) (ops : List KVOp) (wErr : Option Nat)
    (cErr : Option Nat) : View × Outcome :=
  match wErr with
  | some e => (base, .err e)
  | none =>
    match cErr with
    | some e => (base, .err e)
    | none => (txnView base ops, .ok)

/-- C4: when work returns an error, every adapter's txn leaves the
    committed store untouched (whatever set/dels/append/incrBy effects
    were buffered) and returns that same error. -/
theorem claim4_rollback_no_effect (base : View) (ops : List KVOp)
    (e : Nat) (cErr : Option Nat) :
    golevelTxn base ops (some e) cErr = (base, .err e) ∧
    levigoTxn base ops (some e) cErr = (base, .err e) ∧
    rocksdbTxnRun base ops (some e) cErr = (base, .err e) :=
  ⟨rfl, rfl, rfl⟩

/-- C5 counterexample: in the rocksdb adapter a commit failure after
    successful work is returned to the caller as an ordinary error value,
    not treated as fatal. -/
theorem claim5_counterexample :
    (rocksdbTxnRun emptyView [] none (some 7)).2 = .err 7 ∧
    (rocksdbTxnRun emptyView [] none (some 7)).2 ≠ .fatal := by
  exact ⟨rfl, by decide⟩

/-- C5 amended: the two leveldb adapters panic (fatal) on commit failure
    and return an error value only when work produced it; the rocksdb
    adapter returns the engine's commit error to the caller, so it can
    return a non-fatal error that work did not produce. -/
theorem claim5_amended (base : View) (ops : List KVOp) (e c : Nat)
    (cErr : Option Nat) :
    (golevelTxn base ops none (some c)).2 = .fatal ∧
    (levigoTxn base ops none (some c)).2 = .fatal ∧
    (rocksdbTxnRun base ops none (some c)).2 = .err c ∧
    (golevelTxn base ops (some e) cErr).2 = .err e ∧
    (levigoTxn base ops (some e) cErr).2 = .err e ∧
    (rocksdbTxnRun base ops (some e) cErr).2 = .err e ∧
    (golevelTxn base ops none none).2 = .ok ∧
    (levigoTxn base ops none none).2 = .ok ∧
    (rocksdbTxnRun base ops none none).2 = .ok :=
  ⟨rfl, rfl, rfl, rfl, rfl, rfl, rfl, rfl, rfl⟩

/-- C10: a key committed with an empty value is read back as absent by
    the levigo get (len(value) == 0 maps to nil), indistinguishable from
    a key never written (the empty view), while the goleveldb and rocksdb
    gets return the present empty value and so distinguish the two. -/
theorem claim10_levigo_empty_value (base : View) (k : Bytes) :
    levigoGet (txnView base [KVOp.set k []]) k = none ∧
    levigoGet emptyView k = none ∧
    golevelGet (txnView base [KVOp.set k []]) k = some [] ∧
    rocksdbGet (txnView base [KVOp.set k []]) k = some [] ∧
    golevelGet emptyView k = none ∧
    rocksdbGet emptyView k = none := by
  have h : txnView base [KVOp.set k []] k = some ([] : Bytes) := by
    simp [txnView, bufGet]
  refine ⟨?_, rfl, ?_, ?_, rfl, rfl⟩
  · simp [levigoGet, h]
  · simp [golevelGet, h]
  · simp [rocksdbGet, h]

/-- The eight big-endian bytes of a 64-bit unsigned value. -/
def packBytes (n : Nat) : Bytes :=
  [n / 2 ^ 56 % 256, n / 2 ^ 48 % 256, n / 2 ^ 40 % 256, n / 2 ^ 32 % 256,
   n / 2 ^ 24 % 256, n / 2 ^ 16 % 256, n / 2 ^ 8 % 256, n % 256]

/-- Modelled from the spec: packCounter is not among the analysed source
    files (it lives elsewhere in the repository); the spec fixes it as one
    half of a pair of inverse functions over a fixed-width binary encoding
    of a signed 64-bit counter, modelled here as 8-byte big-endian two's
    complement. -/
def packCounter (v : Int) : Bytes :=
  packBytes ((v % (2 ^ 64 : Int)).toNat)

/-- Modelled from the spec: parseCounter, the inverse decoding of
    packCounter; a big-endian fold reduced to the signed 64-bit range
    (the Go function returns an int64). -/
def parseCounter (buf : Bytes) : Int :=
  if 2 ^ 63 ≤ (buf.foldl (fun acc x => acc * 256 + x % 256) 0) % 2 ^ 64 then
    (((buf.foldl (fun acc x => acc * 256 + x % 256) 0) % 2 ^ 64 : Nat) : Int)
      - 2 ^ 64
  else (((buf.foldl (fun acc x => acc * 256 + x % 256) 0) % 2 ^ 64 : Nat) : Int)

/-- Go int64 addition wraps around; wrap64 maps an integer into the
    signed 64-bit range the way int64 arithmetic does. -/
def wrap64 (x : Int) : Int := (x + 2 ^ 63) % 2 ^ 64 - 2 ^ 63

theorem wrap64_id {x : Int} (h1 : -(2 ^ 63) ≤ x) (h2 : x < 2 ^ 63) :
    wrap64 x = x := by
  unfold wrap64
  omega

theorem parseCounter_range (buf : Bytes) :
    -(2 ^ 63) ≤ parseCounter buf ∧ parseCounter buf < 2 ^ 63 := by
  unfold parseCounter
  have h : (buf.foldl (fun acc x => acc * 256 + x % 256) 0) % 2 ^ 64 <
      2 ^ 64 := Nat.mod_lt _ (by norm_num)
  by_cases hle :
      2 ^ 63 ≤ (buf.foldl (fun acc x => acc * 256 + x % 256) 0) % 2 ^ 64
  · rw [if_pos hle]
    omega
  · rw [if_neg hle]
    omega

set_option maxHeartbeats 2000000 in
theorem decode_packBytes (n : Nat) :
    List.foldl (fun acc x => acc * 256 + x % 256) 0 (packBytes n) =
      n % 2 ^ 64 := by
  unfold packBytes
  simp only [List.foldl]
  omega

theorem parse_pack (v : Int) (h1 : -(2 ^ 63) ≤ v) (h2 : v < 2 ^ 63) :
    parseCounter (packCounter v) = v := by
  have hv1 : 0 ≤ v % (2 ^ 64 : Int) := Int.emod_nonneg v (by norm_num)
  have hv2 : v % (2 ^ 64 : Int) < 2 ^ 64 := Int.emod_lt_of_pos v (by norm_num)
  have hncast : (((v % (2 ^ 64 : Int)).toNat : Int)) = v % (2 ^ 64 : Int) :=
    Int.toNat_of_nonneg hv1
  have hnlt : (v % (2 ^ 64 : Int)).toNat < 2 ^ 64 := by omega
  unfold parseCounter packCounter
  rw [decode_packBytes, Nat.mod_eq_of_lt hnlt, Nat.mod_eq_of_lt hnlt]
  by_cases hc : (2 : Nat) ^ 63 ≤ (v % (2 ^ 64 : Int)).toNat
  · rw [if_pos hc]
    omega
  · rw [if_neg hc]
    omega

/-- The counter read inside incrBy: new is zero unless len(buf) > 0, in
    which case it is parseCounter(buf); the adapter get returns nil for an
    absent key, so absent and empty both read as zero. -/
def counterOf (buf : Option Bytes) : Int :=
  match buf with
  | none => 0
  | some bs => if 0 < bs.length then parseCounter bs else 0

/-- ldbTxn.incrBy (goleveldb variant) and rocksdbTxn.incrBy: read the
    current counter through the transaction get, and only when the delta
    is nonzero add it (with int64 wrap-around) and set the packed result;
    the resulting counter is returned in both cases. -/
def incrBy (base : View) (ops : List KVOp) (k : Bytes) (d : Int) :
    List KVOp × Int :=
  if d ≠ 0 then
    (ops ++
      [KVOp.set k (packCounter (wrap64 (counterOf (txnView base ops k) + d)))],
     wrap64 (counterOf (txnView base ops k) + d))
  else (ops, counterOf (txnView base ops k))

theorem packCounter_length (v : Int) : (packCounter v).length = 8 := rfl

theorem counterOf_pack (v : Int) (h1 : -(2 ^ 63) ≤ v) (h2 : v < 2 ^ 63) :
    counterOf (some (packCounter v)) = v := by
  have hlen : (0 : Nat) < (packCounter v).length := by
    rw [packCounter_length]
    norm_num
  calc counterOf (some (packCounter v))
      = if 0 < (packCounter v).length then parseCounter (packCounter v)
        else 0 := rfl
    _ = parseCounter (packCounter v) := if_pos hlen
    _ = v := parse_pack v h1 h2

theorem txnView_single_set (base : View) (k v : Bytes) :
    txnView base [KVOp.set k v] k = some v := by
  have h := txnView_set_same base [] k v
  simpa using h

theorem incrBy_zero (base : View) (ops : List KVOp) (k : Bytes) :
    incrBy base ops k 0 = (ops, counterOf (txnView base ops k)) := by
  simp [incrBy]

theorem incrBy_nonzero (base : View) (ops : List KVOp) (k : Bytes) {d : Int}
    (hd : d ≠ 0) :
    incrBy base ops k d =
      (ops ++
        [KVOp.set k (packCounter (wrap64 (counterOf (txnView base ops k) + d)))],
       wrap64 (counterOf (txnView base ops k) + d)) := by
  simp [incrBy, hd]

/-- C6: incrBy returns the current counter plus the delta (an absent or
    empty value counts as zero) and appends a packed write back to k
    exactly when the delta is nonzero; consequently increments of d1 and
    then d2 starting from an absent key return and store d1 + d2, and a
    zero increment on an absent key performs no write. -/
theorem claim6_incrBy (base : View) (ops : List KVOp) (k : Bytes)
    (d d1 d2 : Int)
    (habsent : base k = none)
    (hd : -(2 ^ 63) ≤ counterOf (txnView base ops k) + d ∧
      counterOf (txnView base ops k) + d < 2 ^ 63)
    (h1 : -(2 ^ 63) ≤ d1 ∧ d1 < 2 ^ 63)
    (h2 : -(2 ^ 63) ≤ d2 ∧ d2 < 2 ^ 63)
    (h12 : -(2 ^ 63) ≤ d1 + d2 ∧ d1 + d2 < 2 ^ 63) :
    (d ≠ 0 → incrBy base ops k d =
      (ops ++ [KVOp.set k (packCounter (counterOf (txnView base ops k) + d))],
       counterOf (txnView base ops k) + d)) ∧
    incrBy base ops k 0 = (ops, counterOf (txnView base ops k)) ∧
    (incrBy base (incrBy base [] k d1).1 k d2).2 = d1 + d2 ∧
    counterOf (txnView base (incrBy base (incrBy base [] k d1).1 k d2).1 k) =
      d1 + d2 := by
  have hcur0 : txnView base [] k = none := by
    unfold txnView bufGet
    simpa using habsent
  have hc0 : counterOf (txnView base [] k) = 0 := by
    rw [hcur0]
    rfl
  refine ⟨?_, incrBy_zero base ops k, ?_⟩
  · intro hdne
    rw [incrBy_nonzero base ops k hdne, wrap64_id hd.1 hd.2]
  · by_cases hd1 : d1 = 0
    · subst hd1
      rw [incrBy_zero]
      by_cases hd2 : d2 = 0
      · subst hd2
        rw [incrBy_zero]
        simp [hc0]
      · rw [incrBy_nonzero base [] k hd2]
        simp only [hc0, zero_add, List.nil_append]
        rw [wrap64_id h2.1 h2.2]
        refine ⟨rfl, ?_⟩
        rw [txnView_single_set]
        exact counterOf_pack d2 h2.1 h2.2
    · rw [incrBy_nonzero base [] k hd1]
      simp only [hc0, zero_add, List.nil_append]
      rw [wrap64_id h1.1 h1.2]
      have hcur1 :
          counterOf (txnView base [KVOp.set k (packCounter d1)] k) = d1 := by
        rw [txnView_single_set]
        exact counterOf_pack d1 h1.1 h1.2
      by_cases hd2 : d2 = 0
      · subst hd2
        rw [incrBy_zero]
        simp [hcur1]
      · rw [incrBy_nonzero base [KVOp.set k (packCounter d1)] k hd2]
        rw [hcur1, wrap64_id h12.1 h12.2]
        refine ⟨rfl, ?_⟩
        rw [txnView_set_same]
        exact counterOf_pack _ h12.1 h12.2

theorem claim6_witness :
    (((2 : Int) ≠ 0 →
      incrBy emptyView [] [99] 2 =
        ([] ++ [KVOp.set [99]
          (packCounter (counterOf (txnView emptyView [] [99]) + 2))],
         counterOf (txnView emptyView [] [99]) + 2)) ∧
    incrBy emptyView [] [99] 0 = ([], counterOf (txnView emptyView [] [99])) ∧
    (incrBy emptyView (incrBy emptyView [] [99] 5).1 [99] (-3)).2 = 5 + -3 ∧
    counterOf (txnView emptyView
      (incrBy emptyView (incrBy emptyView [] [99] 5).1 [99] (-3)).1 [99]) =
      5 + -3) :=
  claim6_incrBy emptyView [] [99] 2 5 (-3) rfl (by decide) (by decide)
    (by decide) (by decide)

theorem claim2_witness :
    ∃ q b m, ([0, 255] : Bytes) = q ++ b :: List.replicate m 255 ∧ b ≠ 255 ∧
      nextKey [0, 255] = .bound (q ++ (b + 1) :: List.replicate m 0) ∧
      (∀ ext, ([0, 255] : Bytes) <+: ext →
        ltB ext (q ++ (b + 1) :: List.replicate m 0) = true) ∧
      (m = 0 → IsLeastBoundFor [0, 255] (q ++ [b + 1])) :=
  claim2_amended [0, 255] (by decide) (by decide) (by decide)
